import Mathlib

/-!
Verification of the dieopt repository's core placement algorithm
(`backup.py`: `_usable_radius`, `_corners_local`, `_within_circle`,
`_grid_bounds`, `_count_with_offset_no_rotation`,
`optimise_three_fixed_offsets`) and its parameter-coercion layer
(`dieopt/api.py`: `_coerce_wafer`, `_coerce_die`, `dieopt`).

Machine floats are embedded as exact rationals.  The coarse prune of the
source compares squared distances against `(R - half_diag)^2 * (1 + tol)`
where `half_diag = 0.5 * hypot(w, h)` is irrational; we implement that
comparison as a decidable predicate on rationals (`withinCircleCoarse`)
and prove it equivalent to the real-number inequality the source computes
(`withinCircleCoarse_iff`).
-/

namespace DieOpt

/-- Embeds the `Wafer` dataclass of `backup.py`: `diameter`, `edge_exclusion` (default 0.0). -/
structure Wafer where
  diameter : ℚ
  edge_exclusion : ℚ := 0
deriving DecidableEq

/-- Embeds the `Die` dataclass of `backup.py`: `width`, `height`, `scribe` (default 0.0). -/
structure Die where
  width : ℚ
  height : ℚ
  scribe : ℚ := 0
deriving DecidableEq

/-- Embeds the `PlacementResult` dataclass of `backup.py`.  `positions` is the `(N,2)`
array of die centres, embedded as a list of coordinate pairs. -/
structure PlacementResult where
  dpw : ℕ
  angle_deg : ℚ
  offset : ℚ × ℚ
  positions : List (ℚ × ℚ)
deriving DecidableEq

/-- Embeds `_usable_radius`: `0.5 * w.diameter - w.edge_exclusion`. -/
def usableRadius (w : Wafer) : ℚ :=
  (1 / 2) * w.diameter - w.edge_exclusion

/-- Embeds `_corners_local`: the four local corner offsets
`[(-hw,-hh), (hw,-hh), (hw,hh), (-hw,hh)]` with `hw = 0.5*w_die`, `hh = 0.5*h_die`. -/
def cornersLocal (w_die h_die : ℚ) : List (ℚ × ℚ) :=
  [(-(w_die / 2), -(h_die / 2)), (w_die / 2, -(h_die / 2)),
   (w_die / 2, h_die / 2), (-(w_die / 2), h_die / 2)]

/-- Default tolerance `tol = 1e-9` of `_within_circle`. -/
def tolDefault : ℚ := 1 / 1000000000

/-- Squared Euclidean norm of a point (the `einsum('ij,ij->i', p, p)` of the source). -/
def normSq (p : ℚ × ℚ) : ℚ := p.1 * p.1 + p.2 * p.2

/-- Embeds `_within_circle` at a rational radius: `‖p‖² ≤ R² * (1 + tol)`. -/
def withinCircle (p : ℚ × ℚ) (R : ℚ) (tol : ℚ) : Bool :=
  decide (normSq p ≤ R * R * (1 + tol))

/-- Decides `r * √d ≤ a` for rationals `r`, `a` and `0 ≤ d`, by sign analysis
and squaring. -/
def mulSqrtLe (r d a : ℚ) : Bool :=
  if 0 ≤ r then decide (0 ≤ a) && decide (r * r * d ≤ a * a)
  else decide (0 ≤ a) || decide (a * a ≤ r * r * d)

/-- Embeds `_within_circle` at the irrational radius `R - √d2 / 2` (the source's
`R - half_diag` with `half_diag = 0.5*hypot(w,h)`, `d2 = w² + h²`):
decides `‖p‖² ≤ (R - √d2/2)² * (1 + tol)`, rewritten as
`R·√d2 ≤ R² + d2/4 - ‖p‖²/(1+tol)`. -/
def withinCircleCoarse (p : ℚ × ℚ) (R d2 tol : ℚ) : Bool :=
  mulSqrtLe R d2 (R * R + d2 / 4 - normSq p / (1 + tol))

/-- Integer version of `np.arange lo hi`: `[lo, lo+1, …, hi-1]`, empty when `hi ≤ lo`. -/
def arange (lo hi : ℤ) : List ℤ :=
  (List.range (hi - lo).toNat).map (fun k : ℕ => lo + (k : ℤ))

/-- Embeds `_grid_bounds`: `max_half = R + max(px, py)`,
`ix = ceil(max_half/px)`, `iy = ceil(max_half/py)`.  The source then forms
`np.arange(-ix, ix+1)` and `np.arange(-iy, iy+1)`. -/
def gridBounds (R px py : ℚ) : ℤ × ℤ :=
  let maxHalf := R + max px py
  (⌈maxHalf / px⌉, ⌈maxHalf / py⌉)

/-- The flattened `meshgrid(grid_x, grid_y, indexing='xy')` centre list:
row-major over `j` (outer) and `i` (inner), centre `(i*px + x_off, j*py + y_off)`. -/
def centresList (R px py x_off y_off : ℚ) : List (ℚ × ℚ) :=
  let b := gridBounds R px py
  let gridX := (arange (-b.1) (b.1 + 1)).map (fun i : ℤ => (i : ℚ) * px + x_off)
  let gridY := (arange (-b.2) (b.2 + 1)).map (fun j : ℤ => (j : ℚ) * py + y_off)
  gridY.flatMap (fun y => gridX.map (fun x => (x, y)))

/-- Stage-2 exact test of `_count_with_offset_no_rotation`: all four absolute
corners `centre + corners_local` pass `_within_circle(·, R)` at the default
tolerance. -/
def cornersOk (die : Die) (R : ℚ) (c : ℚ × ℚ) : Bool :=
  (cornersLocal die.width die.height).all
    (fun v => withinCircle (c.1 + v.1, c.2 + v.2) R tolDefault)

/-- Embeds `_count_with_offset_no_rotation`: enumerate the lattice, coarse-prune at
radius `R - half_diag`, short-circuit to `dpw = 0` if no centre survives,
otherwise keep the centres whose four corners all lie within radius `R`. -/
def countWithOffsetNoRotation (wafer : Wafer) (die : Die) (x_off y_off : ℚ) :
    PlacementResult :=
  let R := usableRadius wafer
  let px := die.width + die.scribe
  let py := die.height + die.scribe
  let centres := centresList R px py x_off y_off
  let d2 := die.width * die.width + die.height * die.height
  let centres1 := centres.filter (fun c => withinCircleCoarse c R d2 tolDefault)
  if centres1 = [] then
    ⟨0, 0, (x_off, y_off), []⟩
  else
    let good := centres1.filter (fun c => cornersOk die R c)
    ⟨good.length, 0, (x_off, y_off), good⟩

/-- Embeds `max([r1, r2, r3], key=lambda r: r.dpw)`: Python's `max` keeps the first
element on ties and replaces only on a strictly greater key. -/
def pyMax3 (r1 r2 r3 : PlacementResult) : PlacementResult :=
  let m2 := if r2.dpw > r1.dpw then r2 else r1
  if r3.dpw > m2.dpw then r3 else m2

/-- Embeds the `ThreeRunSummary` dataclass: `best`, the `per_iter` mapping (fixed keys
`"iter1"`, `"iter2"`, `"iter3"`, embedded as three fields) and `note_iter2`. -/
structure ThreeRunSummary where
  best : PlacementResult
  iter1 : PlacementResult
  iter2 : PlacementResult
  iter3 : PlacementResult
  note_iter2 : String
deriving DecidableEq

/-- Embeds `optimise_three_fixed_offsets`: iter1 at (0,0); iter2 at half pitch in x
or y, whichever has the larger dpw (x on ties); iter3 at half pitch in both;
best chosen by Python `max` on dpw. -/
def optimiseThreeFixedOffsets (wafer : Wafer) (die : Die) : ThreeRunSummary :=
  let px := die.width + die.scribe
  let py := die.height + die.scribe
  let r1 := countWithOffsetNoRotation wafer die 0 0
  let r2x := countWithOffsetNoRotation wafer die (px / 2) 0
  let r2y := countWithOffsetNoRotation wafer die 0 (py / 2)
  let r2 := if r2x.dpw ≥ r2y.dpw then r2x else r2y
  let note2 := if r2x.dpw ≥ r2y.dpw then "x" else "y"
  let r3 := countWithOffsetNoRotation wafer die (px / 2) (py / 2)
  ⟨pyMax3 r1 r2 r3, r1, r2, r3, note2⟩

/-- Embeds `DieOptError` of `dieopt/models.py`, raised by the coercion layer of
`dieopt/api.py`. -/
inductive DieOptError where
  | configError : String → DieOptError
deriving DecidableEq

/-- Embeds `_coerce_wafer` of `dieopt/api.py`: a structured `Wafer` wins; otherwise
`wafer_diameter` is required and `edge_exclusion or 0.0` defaults to 0. -/
def coerceWafer (wafer : Option Wafer) (wafer_diameter edge_exclusion : Option ℚ) :
    Except DieOptError Wafer :=
  match wafer with
  | some w => .ok w
  | none =>
    match wafer_diameter with
    | none => .error (.configError "Provide wafer or wafer_diameter.")
    | some d => .ok ⟨d, edge_exclusion.getD 0⟩

/-- Embeds `_coerce_die` of `dieopt/api.py`: a structured `Die` wins; otherwise
`width` and `height` are required and `scribe or 0.0` defaults to 0. -/
def coerceDie (die : Option Die) (width height scribe : Option ℚ) :
    Except DieOptError Die :=
  match die with
  | some d => .ok d
  | none =>
    match width, height with
    | some w, some h => .ok ⟨w, h, scribe.getD 0⟩
    | none, _ => .error (.configError "Provide die or width & height.")
    | _, none => .error (.configError "Provide die or width & height.")

/-- The coercion boundary of `dieopt` (`api.py` lines 75-76):
`w = _coerce_wafer(...)` then `d = _coerce_die(...)`. -/
def dieoptCoerce (wafer : Option Wafer) (die : Option Die)
    (wafer_diameter edge_exclusion width height scribe : Option ℚ) :
    Except DieOptError (Wafer × Die) :=
  match coerceWafer wafer wafer_diameter edge_exclusion with
  | .error e => .error e
  | .ok w =>
    match coerceDie die width height scribe with
    | .error e => .error e
    | .ok d => .ok (w, d)

/-- Whether the coercion boundary raised a `DieOptError`. -/
def raisesConfigError (r : Except DieOptError (Wafer × Die)) : Bool :=
  match r with
  | .error _ => true
  | .ok _ => false

/- ------------------------------------------------------------------
   Basic structural lemmas about the counter.
   ------------------------------------------------------------------ -/

theorem count_offset_eq (w : Wafer) (d : Die) (x y : ℚ) :
    (countWithOffsetNoRotation w d x y).offset = (x, y) := by
  simp only [countWithOffsetNoRotation]
  split <;> rfl

/-- C6: for every wafer, die and offset, the `PlacementResult` returned by
`_count_with_offset_no_rotation` has `dpw` equal to the number of entries in
`positions`, in both the short-circuit branch and the normal branch. -/
theorem C6_dpw_eq_positions_length (w : Wafer) (d : Die) (x y : ℚ) :
    (countWithOffsetNoRotation w d x y).dpw =
      (countWithOffsetNoRotation w d x y).positions.length := by
  simp only [countWithOffsetNoRotation]
  split <;> rfl

/- ------------------------------------------------------------------
   Structure of the optimiser's summary.
   ------------------------------------------------------------------ -/

theorem optimise_iter1_eq (w : Wafer) (d : Die) :
    (optimiseThreeFixedOffsets w d).iter1 = countWithOffsetNoRotation w d 0 0 := by
  simp only [optimiseThreeFixedOffsets]

theorem optimise_iter2_eq (w : Wafer) (d : Die) :
    (optimiseThreeFixedOffsets w d).iter2 =
      if (countWithOffsetNoRotation w d ((d.width + d.scribe) / 2) 0).dpw ≥
          (countWithOffsetNoRotation w d 0 ((d.height + d.scribe) / 2)).dpw then
        countWithOffsetNoRotation w d ((d.width + d.scribe) / 2) 0
      else
        countWithOffsetNoRotation w d 0 ((d.height + d.scribe) / 2) := by
  simp only [optimiseThreeFixedOffsets]

theorem optimise_iter3_eq (w : Wafer) (d : Die) :
    (optimiseThreeFixedOffsets w d).iter3 =
      countWithOffsetNoRotation w d ((d.width + d.scribe) / 2) ((d.height + d.scribe) / 2) := by
  simp only [optimiseThreeFixedOffsets]

theorem optimise_best_eq (w : Wafer) (d : Die) :
    (optimiseThreeFixedOffsets w d).best =
      pyMax3 (optimiseThreeFixedOffsets w d).iter1 (optimiseThreeFixedOffsets w d).iter2
        (optimiseThreeFixedOffsets w d).iter3 := by
  simp only [optimiseThreeFixedOffsets]

theorem pyMax3_spec (r1 r2 r3 : PlacementResult) :
    (pyMax3 r1 r2 r3).dpw = max (max r1.dpw r2.dpw) r3.dpw ∧
    (if r1.dpw ≥ r2.dpw ∧ r1.dpw ≥ r3.dpw then pyMax3 r1 r2 r3 = r1
     else if r2.dpw ≥ r3.dpw then pyMax3 r1 r2 r3 = r2
     else pyMax3 r1 r2 r3 = r3) := by
  simp only [pyMax3]
  split_ifs <;> refine ⟨by omega, ?_⟩ <;> first | rfl | omega

theorem pyMax3_cases (r1 r2 r3 : PlacementResult) :
    pyMax3 r1 r2 r3 = r1 ∨ pyMax3 r1 r2 r3 = r2 ∨ pyMax3 r1 r2 r3 = r3 := by
  simp only [pyMax3]
  split_ifs <;> simp

/- ------------------------------------------------------------------
   C8: round-trip determinism of the optimiser's best offset.
   ------------------------------------------------------------------ -/

/-- C8: feeding `best.offset` back into the evaluator reproduces `best`
exactly: the evaluator is a pure function and echoes its offset, so
re-evaluating at `best.offset` yields a result equal to `best` in all
fields (`dpw`, `angle_deg`, `offset`, `positions`). -/
theorem C8_roundtrip (w : Wafer) (d : Die) :
    countWithOffsetNoRotation w d
        ((optimiseThreeFixedOffsets w d).best.offset.1)
        ((optimiseThreeFixedOffsets w d).best.offset.2) =
      (optimiseThreeFixedOffsets w d).best := by
  have hb := optimise_best_eq w d
  have h2 := optimise_iter2_eq w d
  rcases pyMax3_cases (optimiseThreeFixedOffsets w d).iter1
      (optimiseThreeFixedOffsets w d).iter2 (optimiseThreeFixedOffsets w d).iter3 with
    h | h | h
  · rw [hb, h, optimise_iter1_eq, count_offset_eq]
  · rw [hb, h]
    rw [h2]
    split
    · rw [count_offset_eq]
    · rw [count_offset_eq]
  · rw [hb, h, optimise_iter3_eq, count_offset_eq]

/- ------------------------------------------------------------------
   C1: the optimiser's best result is the earliest maximum.
   ------------------------------------------------------------------ -/

/-- C1: `optimise_three_fixed_offsets` returns a summary whose `best.dpw`
equals the maximum of the three iterations' `dpw`, and `best` is the result
of the earliest iteration attaining that maximum (iter1 before iter2 before
iter3 on exact ties), because Python's `max` keeps the first maximal
element. -/
theorem C1_best_is_earliest_max (w : Wafer) (d : Die) :
    (optimiseThreeFixedOffsets w d).best.dpw =
      max (max (optimiseThreeFixedOffsets w d).iter1.dpw
               (optimiseThreeFixedOffsets w d).iter2.dpw)
          (optimiseThreeFixedOffsets w d).iter3.dpw ∧
    (if (optimiseThreeFixedOffsets w d).iter1.dpw ≥
          (optimiseThreeFixedOffsets w d).iter2.dpw ∧
        (optimiseThreeFixedOffsets w d).iter1.dpw ≥
          (optimiseThreeFixedOffsets w d).iter3.dpw then
       (optimiseThreeFixedOffsets w d).best = (optimiseThreeFixedOffsets w d).iter1
     else if (optimiseThreeFixedOffsets w d).iter2.dpw ≥
          (optimiseThreeFixedOffsets w d).iter3.dpw then
       (optimiseThreeFixedOffsets w d).best = (optimiseThreeFixedOffsets w d).iter2
     else
       (optimiseThreeFixedOffsets w d).best = (optimiseThreeFixedOffsets w d).iter3) := by
  rw [optimise_best_eq]
  exact pyMax3_spec _ _ _

/- ------------------------------------------------------------------
   C9 / C10: the parameter-coercion boundary.
   ------------------------------------------------------------------ -/

/-- C10: with no structured `Wafer`, an omitted `edge_exclusion` is treated
as `0.0` and only `wafer_diameter` is required; with no structured `Die`, an
omitted `scribe` is treated as `0.0` and only `width` and `height` are
required — such calls succeed rather than raising a configuration error. -/
theorem C10_scalar_defaults (dia wd ht : ℚ) :
    dieoptCoerce none none (some dia) none (some wd) (some ht) none =
      Except.ok (⟨dia, 0⟩, ⟨wd, ht, 0⟩) := rfl

/-- C9 counterexample: a call with no structured values and an incomplete
scalar set (`edge_exclusion` and `scribe` omitted) succeeds instead of
raising, so "fails when neither a structured value nor the complete scalar
set is supplied" is false as stated. -/
theorem C9_counterexample :
    dieoptCoerce none none (some 10) none (some 1) (some 1) none =
      Except.ok (⟨10, 0⟩, ⟨1, 1, 0⟩) := rfl

/-- C9 (amended): the coercion boundary raises a `DieOptError` iff the wafer
is unstructured with `wafer_diameter` missing, or the die is unstructured
with `width` or `height` missing; `edge_exclusion` and `scribe` are optional
and default to `0.0`. -/
theorem C9_error_iff (wafer : Option Wafer) (die : Option Die)
    (dia ee wd ht sc : Option ℚ) :
    raisesConfigError (dieoptCoerce wafer die dia ee wd ht sc) = true ↔
      (wafer = none ∧ dia = none) ∨
      (die = none ∧ (wd = none ∨ ht = none)) := by
  cases wafer <;> cases die <;> cases dia <;> cases wd <;> cases ht <;>
    simp [dieoptCoerce, coerceWafer, coerceDie, raisesConfigError]

/- ------------------------------------------------------------------
   C2: every surviving position passes the exact four-corner test.
   ------------------------------------------------------------------ -/

/-- C2: every position in the result of the placement evaluation has all
four absolute corner points (`position + corners_local`) satisfying the
exact containment test at the usable radius, i.e. squared distance from the
origin at most `R² · (1 + tol)` with `tol = 1e-9`. -/
theorem C2_positions_pass_corners (w : Wafer) (d : Die) (xo yo : ℚ) (p : ℚ × ℚ)
    (hp : p ∈ (countWithOffsetNoRotation w d xo yo).positions) :
    cornersOk d (usableRadius w) p = true := by
  simp only [countWithOffsetNoRotation, apply_ite PlacementResult.positions] at hp
  split at hp
  · exact absurd hp (List.not_mem_nil p)
  · exact (List.mem_filter.mp hp).2

theorem count_4_0_2_2_0_eval :
    countWithOffsetNoRotation ⟨4, 0⟩ ⟨2, 2, 0⟩ 0 0 = ⟨1, 0, (0, 0), [(0, 0)]⟩ := by
  have hb : gridBounds (usableRadius ⟨4, 0⟩) (2 + 0) (2 + 0) = (2, 2) := by
    simp only [gridBounds, usableRadius, Prod.ext_iff]
    norm_num [Int.ceil_eq_iff]
  have ha : arange (-(2 : ℤ)) (2 + 1) = [-2, -1, 0, 1, 2] := by decide
  have hc : centresList (usableRadius ⟨4, 0⟩) (2 + 0) (2 + 0) 0 0 =
      [(-4, -4), (-2, -4), (0, -4), (2, -4), (4, -4),
       (-4, -2), (-2, -2), (0, -2), (2, -2), (4, -2),
       (-4, 0), (-2, 0), (0, 0), (2, 0), (4, 0),
       (-4, 2), (-2, 2), (0, 2), (2, 2), (4, 2),
       (-4, 4), (-2, 4), (0, 4), (2, 4), (4, 4)] := by
    simp only [centresList, hb, ha]
    norm_num
  simp only [countWithOffsetNoRotation, hc]
  norm_num [withinCircleCoarse, mulSqrtLe, normSq, withinCircle,
    cornersOk, cornersLocal, tolDefault, usableRadius, List.filter, List.all]

/-- C2 witness: at wafer diameter 4 (usable radius 2) and a 2×2 die, the
position `(0,0)` survives and its four corners all pass the exact test. -/
theorem C2_witness :
    cornersOk ⟨2, 2, 0⟩ (usableRadius ⟨4, 0⟩) (0, 0) = true := by
  have hp : ((0 : ℚ), (0 : ℚ)) ∈ (countWithOffsetNoRotation ⟨4, 0⟩ ⟨2, 2, 0⟩ 0 0).positions := by
    rw [count_4_0_2_2_0_eval]
    simp
  exact C2_positions_pass_corners ⟨4, 0⟩ ⟨2, 2, 0⟩ 0 0 (0, 0) hp

/- ------------------------------------------------------------------
   C5: a wafer with non-positive usable radius can still report dpw > 0.
   ------------------------------------------------------------------ -/

/-- C5: the code contradicts the documented degenerate-case behaviour: for
the wafer with diameter 2 and edge exclusion 3 the usable radius is -2 ≤ 0,
yet the evaluation at offset (0,0) of a 2×2 die with scribe 10 reports
`dpw = 1` with position `(0,0)`, because `_within_circle` squares the
negative radius `R` (and `R - half_diag`), turning the containment test
into one against a positive-radius circle. -/
theorem C5_negative_radius_positive_dpw :
    usableRadius ⟨2, 3⟩ ≤ 0 ∧
    (countWithOffsetNoRotation ⟨2, 3⟩ ⟨2, 2, 10⟩ 0 0).dpw = 1 ∧
    (countWithOffsetNoRotation ⟨2, 3⟩ ⟨2, 2, 10⟩ 0 0).positions = [(0, 0)] := by
  have hval : countWithOffsetNoRotation ⟨2, 3⟩ ⟨2, 2, 10⟩ 0 0 = ⟨1, 0, (0, 0), [(0, 0)]⟩ := by
    have hb : gridBounds (usableRadius ⟨2, 3⟩) (2 + 10) (2 + 10) = (1, 1) := by
      simp only [gridBounds, usableRadius, Prod.ext_iff]
      norm_num [Int.ceil_eq_iff]
    have ha : arange (-(1 : ℤ)) (1 + 1) = [-1, 0, 1] := by decide
    have hc : centresList (usableRadius ⟨2, 3⟩) (2 + 10) (2 + 10) 0 0 =
        [(-12, -12), (0, -12), (12, -12), (-12, 0), (0, 0), (12, 0),
         (-12, 12), (0, 12), (12, 12)] := by
      simp only [centresList, hb, ha]
      norm_num
    simp only [countWithOffsetNoRotation, hc]
    norm_num [withinCircleCoarse, mulSqrtLe, normSq, withinCircle,
      cornersOk, cornersLocal, tolDefault, usableRadius, List.filter, List.all]
  refine ⟨by norm_num [usableRadius], ?_, ?_⟩ <;> rw [hval]

/- ------------------------------------------------------------------
   Soundness of the decidable square-root comparisons with respect to
   the real-number arithmetic the source performs.
   ------------------------------------------------------------------ -/

theorem mulSqrtLe_iff (r d a : ℚ) (hd : 0 ≤ d) :
    mulSqrtLe r d a = true ↔ (r : ℝ) * Real.sqrt (d : ℝ) ≤ (a : ℝ) := by
  have hd' : (0 : ℝ) ≤ (d : ℝ) := by exact_mod_cast hd
  unfold mulSqrtLe
  by_cases hr : (0 : ℚ) ≤ r
  · have hr' : (0 : ℝ) ≤ (r : ℝ) := by exact_mod_cast hr
    have key : (r : ℝ) * Real.sqrt (d : ℝ) = Real.sqrt ((r : ℝ) * r * d) := by
      rw [show ((r : ℝ) * r * d) = (r : ℝ) ^ 2 * d by ring,
        Real.sqrt_mul (sq_nonneg _), Real.sqrt_sq hr']
    simp only [if_pos hr, Bool.and_eq_true, decide_eq_true_eq]
    rw [key, Real.sqrt_le_iff]
    constructor
    · rintro ⟨ha, hsq⟩
      refine ⟨by exact_mod_cast ha, ?_⟩
      have hsq' : ((r * r * d : ℚ) : ℝ) ≤ ((a * a : ℚ) : ℝ) := by exact_mod_cast hsq
      push_cast at hsq'
      nlinarith [hsq']
    · rintro ⟨ha, hsq⟩
      refine ⟨by exact_mod_cast ha, ?_⟩
      have : ((r : ℝ) * r * d) ≤ (a : ℝ) * a := by nlinarith [hsq]
      exact_mod_cast this
  · push_neg at hr
    have hr' : (r : ℝ) < 0 := by exact_mod_cast hr
    simp only [if_neg (not_le.mpr hr), Bool.or_eq_true, decide_eq_true_eq]
    constructor
    · rintro (ha | hsq)
      · have ha' : (0 : ℝ) ≤ (a : ℝ) := by exact_mod_cast ha
        nlinarith [Real.sqrt_nonneg (d : ℝ)]
      · have hsq' : ((a : ℝ) * a) ≤ (r : ℝ) * r * d := by exact_mod_cast hsq
        have h1 : Real.sqrt ((a : ℝ) ^ 2) ≤ Real.sqrt ((r : ℝ) ^ 2 * d) :=
          Real.sqrt_le_sqrt (by nlinarith [hsq'])
        rw [Real.sqrt_sq_eq_abs] at h1
        have h2 : Real.sqrt ((r : ℝ) ^ 2 * d) = -(r : ℝ) * Real.sqrt d := by
          rw [show ((r : ℝ) ^ 2) = (-(r : ℝ)) ^ 2 by ring,
            Real.sqrt_mul (sq_nonneg _), Real.sqrt_sq (by linarith)]
        nlinarith [neg_abs_le (a : ℝ), h1, h2]
    · intro h
      by_cases ha : (0 : ℚ) ≤ a
      · exact Or.inl ha
      · push_neg at ha
        refine Or.inr ?_
        have ha' : (a : ℝ) < 0 := by exact_mod_cast ha
        have hs0 : (0 : ℝ) ≤ Real.sqrt (d : ℝ) := Real.sqrt_nonneg _
        have hsq : Real.sqrt (d : ℝ) ^ 2 = (d : ℝ) := Real.sq_sqrt hd'
        have : (a : ℝ) * a ≤ (r : ℝ) * r * d := by nlinarith [h, hsq, hs0]
        exact_mod_cast this

theorem withinCircleCoarse_iff (p : ℚ × ℚ) (R d2 tol : ℚ) (hd : 0 ≤ d2)
    (ht : 0 < 1 + tol) :
    withinCircleCoarse p R d2 tol = true ↔
      ((normSq p : ℝ) ≤ ((R : ℝ) - Real.sqrt (d2 : ℝ) / 2) ^ 2 * (1 + (tol : ℝ))) := by
  have ht' : (0 : ℝ) < 1 + (tol : ℝ) := by exact_mod_cast ht
  unfold withinCircleCoarse
  rw [mulSqrtLe_iff _ _ _ hd]
  have hs2 : Real.sqrt (d2 : ℝ) ^ 2 = (d2 : ℝ) := Real.sq_sqrt (by exact_mod_cast hd)
  have he : (((R : ℝ) - Real.sqrt (d2 : ℝ) / 2) ^ 2) * (1 + (tol : ℝ)) =
      ((R : ℝ) * R + (d2 : ℝ) / 4 - (R : ℝ) * Real.sqrt (d2 : ℝ)) * (1 + (tol : ℝ)) := by
    rw [show (((R : ℝ) - Real.sqrt (d2 : ℝ) / 2) ^ 2) =
      (R : ℝ) * R - (R : ℝ) * Real.sqrt (d2 : ℝ) + Real.sqrt (d2 : ℝ) ^ 2 / 4 by ring, hs2]
    ring
  push_cast
  rw [he]
  constructor
  · intro h
    have h2 : (normSq p : ℝ) / (1 + (tol : ℝ)) ≤
        (R : ℝ) * R + (d2 : ℝ) / 4 - (R : ℝ) * Real.sqrt (d2 : ℝ) := by
      push_cast at h
      linarith
    have h3 := (div_le_iff₀ ht').mp h2
    linarith
  · intro h
    have h2 : (normSq p : ℝ) / (1 + (tol : ℝ)) ≤
        (R : ℝ) * R + (d2 : ℝ) / 4 - (R : ℝ) * Real.sqrt (d2 : ℝ) := by
      rw [div_le_iff₀ ht']
      push_cast at h ⊢
      linarith
    linarith

/- ------------------------------------------------------------------
   C4: when the die's half-diagonal fits in the usable radius, the
   coarse prune is indeed conservative.
   ------------------------------------------------------------------ -/

theorem corner_sum_bound (S q R t inner : ℝ) (hS : 0 ≤ S) (hq : 0 ≤ q) (hqR : q ≤ R)
    (ht : 1 ≤ t) (hc : S ≤ (R - q) ^ 2 * t) (hinner : inner ^ 2 ≤ S * q ^ 2) :
    S + 2 * inner + q ^ 2 ≤ R ^ 2 * t := by
  have hσ0 : 0 ≤ Real.sqrt S := Real.sqrt_nonneg _
  have hσ2 : Real.sqrt S ^ 2 = S := Real.sq_sqrt hS
  have hA : 0 ≤ R - q := by linarith
  have hσle : Real.sqrt S ≤ (R - q) * t := by
    have h1 : S ≤ ((R - q) * t) ^ 2 := by nlinarith
    calc Real.sqrt S ≤ Real.sqrt (((R - q) * t) ^ 2) := Real.sqrt_le_sqrt h1
      _ = (R - q) * t := Real.sqrt_sq (by positivity)
  have hinner2 : inner ≤ Real.sqrt S * q := by
    nlinarith [hσ2, hσ0, hq, hinner, sq_nonneg (inner - Real.sqrt S * q),
      sq_nonneg (inner + Real.sqrt S * q), mul_nonneg hσ0 hq]
  have h2q : Real.sqrt S * q ≤ (R - q) * t * q := mul_le_mul_of_nonneg_right hσle hq
  have h3 : q ^ 2 ≤ q ^ 2 * t := by nlinarith [sq_nonneg q]
  nlinarith [hc, h2q, h3, hinner2, hσ2]

theorem corner_within (d2 R tol c1 c2 v1 v2 : ℚ)
    (hv : v1 * v1 + v2 * v2 = d2 / 4) (hR : 0 ≤ R) (hd4 : d2 ≤ 4 * (R * R))
    (htol : 0 ≤ tol)
    (hco : (normSq (c1, c2) : ℝ) ≤
      ((R : ℝ) - Real.sqrt (d2 : ℝ) / 2) ^ 2 * (1 + (tol : ℝ))) :
    normSq (c1 + v1, c2 + v2) ≤ R * R * (1 + tol) := by
  have hd20 : (0 : ℚ) ≤ d2 := by nlinarith [mul_self_nonneg v1, mul_self_nonneg v2]
  have hs0 : 0 ≤ Real.sqrt (d2 : ℝ) := Real.sqrt_nonneg _
  have hs2 : Real.sqrt (d2 : ℝ) ^ 2 = (d2 : ℝ) := Real.sq_sqrt (by exact_mod_cast hd20)
  have hq2 : (Real.sqrt (d2 : ℝ) / 2) ^ 2 = (d2 : ℝ) / 4 := by
    rw [div_pow, hs2]
    norm_num
  have hqR : Real.sqrt (d2 : ℝ) / 2 ≤ (R : ℝ) := by
    have h1 : Real.sqrt (d2 : ℝ) ≤ 2 * (R : ℝ) := by
      rw [show (2 * (R : ℝ)) = Real.sqrt ((2 * R) ^ 2) from
        (Real.sqrt_sq (by positivity)).symm]
      apply Real.sqrt_le_sqrt
      have hd4' : (d2 : ℝ) ≤ 4 * ((R : ℝ) * (R : ℝ)) := by exact_mod_cast hd4
      nlinarith [hd4']
    linarith
  have hSnn : (0 : ℝ) ≤ (normSq (c1, c2) : ℝ) := by
    have h0 : (0 : ℚ) ≤ normSq (c1, c2) := by
      simp only [normSq]
      nlinarith [mul_self_nonneg c1, mul_self_nonneg c2]
    exact_mod_cast h0
  have hinner : ((c1 * v1 + c2 * v2 : ℚ) : ℝ) ^ 2 ≤
      (normSq (c1, c2) : ℝ) * (Real.sqrt (d2 : ℝ) / 2) ^ 2 := by
    rw [hq2]
    have hvr : ((v1 : ℝ) * v1 + (v2 : ℝ) * v2) = (d2 : ℝ) / 4 := by exact_mod_cast hv
    simp only [normSq]
    push_cast
    nlinarith [sq_nonneg ((c1 : ℝ) * v2 - (c2 : ℝ) * v1), hvr]
  have hmain := corner_sum_bound (normSq (c1, c2) : ℝ) (Real.sqrt (d2 : ℝ) / 2) (R : ℝ)
    (1 + (tol : ℝ)) ((c1 * v1 + c2 * v2 : ℚ) : ℝ) hSnn (by positivity) hqR
    (by
      have h0 : (0 : ℝ) ≤ (tol : ℝ) := by exact_mod_cast htol
      linarith)
    hco hinner
  have hfinal : ((normSq (c1 + v1, c2 + v2) : ℚ) : ℝ) ≤ ((R * R * (1 + tol) : ℚ) : ℝ) := by
    have hvr : ((v1 : ℝ) * v1 + (v2 : ℝ) * v2) = (d2 : ℝ) / 4 := by exact_mod_cast hv
    simp only [normSq] at hmain ⊢
    push_cast at hmain ⊢
    nlinarith [hmain, hq2, hvr]
  exact_mod_cast hfinal

/-- C4 (amended): when the die's half-diagonal is at most the usable radius
(`w² + h² ≤ 4R²`, `0 ≤ R`), every centre that passes the stage-1 coarse
prune at radius `R - half_diag` has all four corners inside the usable
circle, i.e. passes the stage-2 exact four-corner check. -/
theorem C4_coarse_pass_implies_corners (d : Die) (R : ℚ) (c : ℚ × ℚ)
    (hR : 0 ≤ R)
    (hhd : d.width * d.width + d.height * d.height ≤ 4 * (R * R))
    (hco : withinCircleCoarse c R (d.width * d.width + d.height * d.height) tolDefault = true) :
    cornersOk d R c = true := by
  have hd2 : (0 : ℚ) ≤ d.width * d.width + d.height * d.height := by
    nlinarith [mul_self_nonneg d.width, mul_self_nonneg d.height]
  have ht : (0 : ℚ) < 1 + tolDefault := by norm_num [tolDefault]
  have htol : (0 : ℚ) ≤ tolDefault := by norm_num [tolDefault]
  rw [withinCircleCoarse_iff _ _ _ _ hd2 ht] at hco
  unfold cornersOk cornersLocal withinCircle
  simp only [List.all_cons, List.all_nil, Bool.and_eq_true, decide_eq_true_eq, and_true]
  exact ⟨corner_within _ R tolDefault c.1 c.2 _ _ (by ring) hR hhd htol hco,
    corner_within _ R tolDefault c.1 c.2 _ _ (by ring) hR hhd htol hco,
    corner_within _ R tolDefault c.1 c.2 _ _ (by ring) hR hhd htol hco,
    corner_within _ R tolDefault c.1 c.2 _ _ (by ring) hR hhd htol hco⟩

/-- C4 witness: usable radius 4, 2×2 die, centre (1,1): the coarse prune
passes and the theorem yields the exact four-corner check. -/
theorem C4_witness : cornersOk ⟨2, 2, 0⟩ (4 : ℚ) (1, 1) = true :=
  C4_coarse_pass_implies_corners ⟨2, 2, 0⟩ 4 (1, 1) (by norm_num) (by norm_num)
    (by norm_num [withinCircleCoarse, mulSqrtLe, normSq, tolDefault])

/-- C4 counterexample: with usable radius 1 and a 20×20 die, the enumerated
centre (0,0) passes the stage-1 coarse prune (the squared negative radius
`R - half_diag` makes the test vacuous) but its corners fail the exact
check, so the claim "any centre passing the prune has all corners inside"
is false as stated. -/
theorem C4_counterexample :
    ((0 : ℚ), (0 : ℚ)) ∈ centresList (usableRadius ⟨2, 0⟩) (20 + 0) (20 + 0) 0 0 ∧
    withinCircleCoarse (0, 0) (usableRadius ⟨2, 0⟩) (20 * 20 + 20 * 20) tolDefault = true ∧
    cornersOk ⟨20, 20, 0⟩ (usableRadius ⟨2, 0⟩) (0, 0) = false := by
  refine ⟨?_, ?_, ?_⟩
  · have hb : gridBounds (usableRadius ⟨2, 0⟩) (20 + 0) (20 + 0) = (2, 2) := by
      simp only [gridBounds, usableRadius, Prod.ext_iff]
      norm_num [Int.ceil_eq_iff]
    have ha : arange (-(2 : ℤ)) (2 + 1) = [-2, -1, 0, 1, 2] := by decide
    simp only [centresList, hb, ha]
    norm_num
  · norm_num [withinCircleCoarse, mulSqrtLe, normSq, tolDefault, usableRadius]
  · norm_num [cornersOk, cornersLocal, withinCircle, normSq, tolDefault, usableRadius,
      List.all]

/- ------------------------------------------------------------------
   C3: the search window covers every contained die only under a bound
   on the offset.
   ------------------------------------------------------------------ -/

/-- C3 counterexample: with usable radius 1, a 1×1 die and offset
`(100, 0)`, the die at index `(-100, 0)` sits at centre `(0,0)` and is
fully contained (both under the code's tolerance test and under the strict
test `‖·‖² ≤ R²`), yet `-100` lies far outside the enumerated index range
`[-ix, ix]` with `ix = 2`, so the claim fails for unrestricted offsets. -/
theorem C3_counterexample :
    cornersOk ⟨1, 1, 0⟩ (usableRadius ⟨2, 0⟩)
      ((-100 : ℚ) * (1 + 0) + 100, (0 : ℚ) * (1 + 0) + 0) = true ∧
    (cornersLocal 1 1).all (fun v =>
      decide (normSq ((-100 : ℚ) * (1 + 0) + 100 + v.1, (0 : ℚ) * (1 + 0) + 0 + v.2) ≤
        usableRadius ⟨2, 0⟩ * usableRadius ⟨2, 0⟩)) = true ∧
    (-100 : ℤ) < -(gridBounds (usableRadius ⟨2, 0⟩) (1 + 0) (1 + 0)).1 := by
  have hb : gridBounds (usableRadius ⟨2, 0⟩) (1 + 0) (1 + 0) = (2, 2) := by
    simp only [gridBounds, usableRadius, Prod.ext_iff]
    norm_num [Int.ceil_eq_iff]
  refine ⟨?_, ?_, ?_⟩
  · norm_num [cornersOk, cornersLocal, withinCircle, normSq, tolDefault, usableRadius,
      List.all]
  · norm_num [cornersLocal, normSq, usableRadius, List.all]
  · rw [hb]
    norm_num

set_option maxHeartbeats 1000000 in
/-- C3 (amended): for offsets bounded by one pitch per axis (which covers
the three offsets the optimiser uses) and a die fully contained in the
strict geometric sense (all four corners at squared distance at most `R²`),
the index pair lies within the enumerated ranges `[-ix, ix] × [-iy, iy]`
of `_grid_bounds`. -/
theorem C3_window_covers_contained (wafer : Wafer) (die : Die) (x_off y_off : ℚ) (i j : ℤ)
    (hpx : 0 < die.width + die.scribe) (hpy : 0 < die.height + die.scribe)
    (hR : 0 ≤ usableRadius wafer)
    (hxo : |x_off| ≤ die.width + die.scribe) (hyo : |y_off| ≤ die.height + die.scribe)
    (hcont : ∀ v ∈ cornersLocal die.width die.height,
      normSq ((i : ℚ) * (die.width + die.scribe) + x_off + v.1,
              (j : ℚ) * (die.height + die.scribe) + y_off + v.2) ≤
        usableRadius wafer * usableRadius wafer) :
    |i| ≤ (gridBounds (usableRadius wafer) (die.width + die.scribe)
            (die.height + die.scribe)).1 ∧
    |j| ≤ (gridBounds (usableRadius wafer) (die.width + die.scribe)
            (die.height + die.scribe)).2 := by
  set R := usableRadius wafer with hRdef
  set px := die.width + die.scribe with hpxdef
  set py := die.height + die.scribe with hpydef
  set cx : ℚ := (i : ℚ) * px + x_off with hcxdef
  set cy : ℚ := (j : ℚ) * py + y_off with hcydef
  have hm1 : (-(die.width / 2), -(die.height / 2)) ∈ cornersLocal die.width die.height := by
    unfold cornersLocal
    exact List.mem_cons_self _ _
  have hm2 : (die.width / 2, die.height / 2) ∈ cornersLocal die.width die.height := by
    unfold cornersLocal
    exact List.mem_cons_of_mem _ (List.mem_cons_of_mem _ (List.mem_cons_self _ _))
  have h1 := hcont _ hm1
  have h2 := hcont _ hm2
  simp only [normSq] at h1 h2
  clear_value R px py cx cy
  have hcx2 : cx * cx ≤ R * R := by
    nlinarith [h1, h2, mul_self_nonneg cy, mul_self_nonneg die.width,
      mul_self_nonneg die.height]
  have hcy2 : cy * cy ≤ R * R := by
    nlinarith [h1, h2, mul_self_nonneg cx, mul_self_nonneg die.width,
      mul_self_nonneg die.height]
  have hcx : |cx| ≤ R := by
    rw [abs_le]
    constructor <;> nlinarith [hcx2, hR]
  have hcy : |cy| ≤ R := by
    rw [abs_le]
    constructor <;> nlinarith [hcy2, hR]
  have hbx : (gridBounds R px py).1 = ⌈(R + max px py) / px⌉ := by
    simp only [gridBounds]
  have hby : (gridBounds R px py).2 = ⌈(R + max px py) / py⌉ := by
    simp only [gridBounds]
  constructor
  · rw [hbx]
    have hi : |(i : ℚ)| * px ≤ R + px := by
      have habs : |(i : ℚ) * px| ≤ |cx| + |x_off| := by
        calc |(i : ℚ) * px| = |cx - x_off| := by rw [hcxdef]; ring_nf
          _ ≤ |cx| + |x_off| := abs_sub _ _
      rw [abs_mul, abs_of_pos hpx] at habs
      linarith
    have hdiv : |(i : ℚ)| ≤ (R + max px py) / px := by
      rw [le_div_iff₀ hpx]
      have hmax : px ≤ max px py := le_max_left _ _
      linarith
    have hceil : ((R + max px py) / px : ℚ) ≤ (⌈(R + max px py) / px⌉ : ℚ) := Int.le_ceil _
    have hfin : |(i : ℚ)| ≤ (⌈(R + max px py) / px⌉ : ℚ) := by linarith
    exact_mod_cast hfin
  · rw [hby]
    have hj : |(j : ℚ)| * py ≤ R + py := by
      have habs : |(j : ℚ) * py| ≤ |cy| + |y_off| := by
        calc |(j : ℚ) * py| = |cy - y_off| := by rw [hcydef]; ring_nf
          _ ≤ |cy| + |y_off| := abs_sub _ _
      rw [abs_mul, abs_of_pos hpy] at habs
      linarith
    have hdiv : |(j : ℚ)| ≤ (R + max px py) / py := by
      rw [le_div_iff₀ hpy]
      have hmax : py ≤ max px py := le_max_right _ _
      linarith
    have hceil : ((R + max px py) / py : ℚ) ≤ (⌈(R + max px py) / py⌉ : ℚ) := Int.le_ceil _
    have hfin : |(j : ℚ)| ≤ (⌈(R + max px py) / py⌉ : ℚ) := by linarith
    exact_mod_cast hfin

/-- C3 witness: at usable radius 2, a 1×1 die at index (0,0) with zero
offset is contained, and its indices lie inside the window. -/
theorem C3_witness :
    |(0 : ℤ)| ≤ (gridBounds (usableRadius ⟨4, 0⟩) (1 + 0) (1 + 0)).1 ∧
    |(0 : ℤ)| ≤ (gridBounds (usableRadius ⟨4, 0⟩) (1 + 0) (1 + 0)).2 :=
  C3_window_covers_contained ⟨4, 0⟩ ⟨1, 1, 0⟩ 0 0 0 0 (by norm_num) (by norm_num)
    (by norm_num [usableRadius]) (by norm_num) (by norm_num)
    (by
      intro v hv
      simp only [cornersLocal] at hv
      fin_cases hv <;> norm_num [normSq, usableRadius])

/- ------------------------------------------------------------------
   C7: monotonicity of dpw in the edge exclusion.  The enumeration of
   the smaller usable radius is a sublist of that of the larger one,
   and (when the half-diagonal fits in the smaller radius) a candidate
   kept at the smaller radius is kept at the larger one.
   ------------------------------------------------------------------ -/

theorem arange_append (lo mid hi : ℤ) (h1 : lo ≤ mid) (h2 : mid ≤ hi) :
    arange lo mid ++ arange mid hi = arange lo hi := by
  unfold arange
  have hsplit : (hi - lo).toNat = (mid - lo).toNat + (hi - mid).toNat := by omega
  rw [hsplit, List.range_add, List.map_append, List.map_map]
  congr 1
  apply List.map_congr_left
  intro a _
  simp only [Function.comp_apply]
  push_cast
  have hml : ((mid - lo).toNat : ℤ) = mid - lo := Int.toNat_of_nonneg (by omega)
  omega

theorem arange_sublist (lo1 lo2 hi2 hi1 : ℤ) (h1 : lo1 ≤ lo2) (h2 : lo2 ≤ hi2)
    (h3 : hi2 ≤ hi1) :
    (arange lo2 hi2).Sublist (arange lo1 hi1) := by
  have e1 : arange lo1 lo2 ++ arange lo2 hi2 = arange lo1 hi2 :=
    arange_append _ _ _ h1 h2
  have e2 : arange lo1 hi2 ++ arange hi2 hi1 = arange lo1 hi1 :=
    arange_append _ _ _ (h1.trans h2) h3
  have s1 : (arange lo2 hi2).Sublist (arange lo1 hi2) :=
    e1 ▸ List.sublist_append_right _ _
  have s2 : (arange lo1 hi2).Sublist (arange lo1 hi1) :=
    e2 ▸ List.sublist_append_left _ _
  exact s1.trans s2

theorem arange_sym_sublist (n2 n1 : ℤ) (h : n2 ≤ n1) :
    (arange (-n2) (n2 + 1)).Sublist (arange (-n1) (n1 + 1)) := by
  by_cases hn : 0 ≤ n2
  · exact arange_sublist _ _ _ _ (by omega) (by omega) (by omega)
  · have he : arange (-n2) (n2 + 1) = [] := by
      unfold arange
      rw [show (n2 + 1 - -n2).toNat = 0 from by omega]
      rfl
    rw [he]
    exact List.nil_sublist _

theorem sublist_flatMap {α β : Type} {l2 l1 : List α} (h : l2.Sublist l1)
    (f2 f1 : α → List β) (hf : ∀ a, (f2 a).Sublist (f1 a)) :
    (l2.flatMap f2).Sublist (l1.flatMap f1) := by
  induction h with
  | slnil => simp
  | cons a h ih =>
    rw [List.flatMap_cons]
    exact ih.trans (List.sublist_append_right _ _)
  | cons₂ a h ih =>
    rw [List.flatMap_cons, List.flatMap_cons]
    exact List.Sublist.append (hf a) ih

theorem gridBounds_mono (R2 R1 px py : ℚ) (hpx : 0 < px) (hpy : 0 < py)
    (hR : R2 ≤ R1) :
    (gridBounds R2 px py).1 ≤ (gridBounds R1 px py).1 ∧
    (gridBounds R2 px py).2 ≤ (gridBounds R1 px py).2 := by
  simp only [gridBounds]
  constructor <;> apply Int.ceil_le_ceil <;> gcongr

theorem centresList_sublist (R2 R1 px py xo yo : ℚ) (hpx : 0 < px) (hpy : 0 < py)
    (hR : R2 ≤ R1) :
    (centresList R2 px py xo yo).Sublist (centresList R1 px py xo yo) := by
  obtain ⟨hx, hy⟩ := gridBounds_mono R2 R1 px py hpx hpy hR
  simp only [centresList]
  apply sublist_flatMap
  · exact List.Sublist.map _ (arange_sym_sublist _ _ hy)
  · intro a
    exact List.Sublist.map _ (List.Sublist.map _ (arange_sym_sublist _ _ hx))

theorem dpw_eq_countP (wafer : Wafer) (die : Die) (xo yo : ℚ) :
    (countWithOffsetNoRotation wafer die xo yo).dpw =
      List.countP (fun c => cornersOk die (usableRadius wafer) c &&
          withinCircleCoarse c (usableRadius wafer)
            (die.width * die.width + die.height * die.height) tolDefault)
        (centresList (usableRadius wafer) (die.width + die.scribe)
          (die.height + die.scribe) xo yo) := by
  simp only [countWithOffsetNoRotation]
  split
  · next hemp =>
    have hle : List.countP (fun c => cornersOk die (usableRadius wafer) c &&
        withinCircleCoarse c (usableRadius wafer)
          (die.width * die.width + die.height * die.height) tolDefault)
        (centresList (usableRadius wafer) (die.width + die.scribe)
          (die.height + die.scribe) xo yo) ≤
        List.countP (fun c => withinCircleCoarse c (usableRadius wafer)
          (die.width * die.width + die.height * die.height) tolDefault)
        (centresList (usableRadius wafer) (die.width + die.scribe)
          (die.height + die.scribe) xo yo) := by
      apply List.countP_mono_left
      intro x _ h
      rw [Bool.and_eq_true] at h
      exact h.2
    have h0 : List.countP (fun c => withinCircleCoarse c (usableRadius wafer)
        (die.width * die.width + die.height * die.height) tolDefault)
        (centresList (usableRadius wafer) (die.width + die.scribe)
          (die.height + die.scribe) xo yo) = 0 := by
      rw [List.countP_eq_length_filter, hemp]
      rfl
    show (0 : ℕ) = _
    omega
  · rw [List.countP_eq_length_filter, List.filter_filter]

theorem keep_mono (die : Die) (R2 R1 : ℚ) (c : ℚ × ℚ) (hR2 : 0 ≤ R2) (hR12 : R2 ≤ R1)
    (hhd : die.width * die.width + die.height * die.height ≤ 4 * (R2 * R2))
    (h : (cornersOk die R2 c &&
      withinCircleCoarse c R2 (die.width * die.width + die.height * die.height)
        tolDefault) = true) :
    (cornersOk die R1 c &&
      withinCircleCoarse c R1 (die.width * die.width + die.height * die.height)
        tolDefault) = true := by
  have hd2 : (0 : ℚ) ≤ die.width * die.width + die.height * die.height := by
    nlinarith [mul_self_nonneg die.width, mul_self_nonneg die.height]
  have ht : (0 : ℚ) < 1 + tolDefault := by norm_num [tolDefault]
  rw [Bool.and_eq_true] at h ⊢
  obtain ⟨hcor, hcoarse⟩ := h
  constructor
  · unfold cornersOk withinCircle at hcor ⊢
    rw [List.all_eq_true] at hcor ⊢
    intro v hv
    have hthis := hcor v hv
    rw [decide_eq_true_eq] at hthis ⊢
    have ha : 0 ≤ (R1 - R2) * (R1 + R2) := mul_nonneg (by linarith) (by linarith)
    have hb : 0 ≤ (R1 - R2) * (R1 + R2) * (1 + tolDefault) := mul_nonneg ha (le_of_lt ht)
    nlinarith [hthis, hb]
  · rw [withinCircleCoarse_iff _ _ _ _ hd2 ht] at hcoarse ⊢
    have hs0 : 0 ≤ Real.sqrt ((die.width * die.width + die.height * die.height : ℚ) : ℝ) :=
      Real.sqrt_nonneg _
    have hqR : Real.sqrt ((die.width * die.width + die.height * die.height : ℚ) : ℝ) / 2 ≤
        (R2 : ℝ) := by
      have h1 : Real.sqrt ((die.width * die.width + die.height * die.height : ℚ) : ℝ) ≤
          2 * (R2 : ℝ) := by
        rw [show (2 * (R2 : ℝ)) = Real.sqrt ((2 * R2) ^ 2) from
          (Real.sqrt_sq (by positivity)).symm]
        apply Real.sqrt_le_sqrt
        have hhd' : ((die.width * die.width + die.height * die.height : ℚ) : ℝ) ≤
            4 * ((R2 : ℝ) * (R2 : ℝ)) := by exact_mod_cast hhd
        nlinarith [hhd']
      linarith
    have hR12' : (R2 : ℝ) ≤ (R1 : ℝ) := by exact_mod_cast hR12
    have ht' : (0 : ℝ) < 1 + (tolDefault : ℝ) := by exact_mod_cast ht
    have hq2 : ((R2 : ℝ) -
        Real.sqrt ((die.width * die.width + die.height * die.height : ℚ) : ℝ) / 2) ^ 2 ≤
        ((R1 : ℝ) -
        Real.sqrt ((die.width * die.width + die.height * die.height : ℚ) : ℝ) / 2) ^ 2 := by
      nlinarith [hqR, hR12']
    have hmul := mul_le_mul_of_nonneg_right hq2 (le_of_lt ht')
    linarith [hcoarse, hmul]

/-- C7 (amended): for a fixed diameter, die, and offset, with positive
pitches, edge exclusions `e1 ≤ e2`, a non-negative usable radius at `e2`,
and the die's half-diagonal at most the usable radius at `e2`
(`w² + h² ≤ 4R₂²`), increasing the edge exclusion never increases `dpw`. -/
theorem C7_dpw_antitone_edge_exclusion (dia e1 e2 : ℚ) (die : Die) (xo yo : ℚ)
    (hpx : 0 < die.width + die.scribe) (hpy : 0 < die.height + die.scribe)
    (h12 : e1 ≤ e2)
    (hR2 : 0 ≤ usableRadius ⟨dia, e2⟩)
    (hhd : die.width * die.width + die.height * die.height ≤
      4 * (usableRadius ⟨dia, e2⟩ * usableRadius ⟨dia, e2⟩)) :
    (countWithOffsetNoRotation ⟨dia, e2⟩ die xo yo).dpw ≤
      (countWithOffsetNoRotation ⟨dia, e1⟩ die xo yo).dpw := by
  have hR12 : usableRadius ⟨dia, e2⟩ ≤ usableRadius ⟨dia, e1⟩ := by
    simp only [usableRadius]
    linarith
  rw [dpw_eq_countP, dpw_eq_countP]
  refine le_trans (List.countP_mono_left ?_)
    ((centresList_sublist _ _ _ _ xo yo hpx hpy hR12).countP_le _)
  intro c _ h
  exact keep_mono die _ _ c hR2 hR12 hhd h

/-- C7 witness: diameter 4, edge exclusions 0 ≤ 1, a 1×1 die with scribe 3:
the dpw at the larger exclusion is at most the dpw at the smaller one. -/
theorem C7_witness :
    (countWithOffsetNoRotation ⟨4, 1⟩ ⟨1, 1, 3⟩ 0 0).dpw ≤
      (countWithOffsetNoRotation ⟨4, 0⟩ ⟨1, 1, 3⟩ 0 0).dpw :=
  C7_dpw_antitone_edge_exclusion 4 0 1 ⟨1, 1, 3⟩ 0 0 (by norm_num) (by norm_num)
    (by norm_num) (by norm_num [usableRadius]) (by norm_num [usableRadius])

set_option maxHeartbeats 4000000 in
theorem count_c7_run2_eval :
    (countWithOffsetNoRotation ⟨4, 1⟩ ⟨2, 3 / 50000, 6⟩ (1 / 25000000000) 0).dpw = 1 := by
  have hb : gridBounds (usableRadius ⟨4, 1⟩) (2 + 6) (3 / 50000 + 6) = (2, 2) := by
    simp only [gridBounds, usableRadius, Prod.ext_iff]
    norm_num [max_def, Int.ceil_eq_iff]
  have ha : arange (-(2 : ℤ)) (2 + 1) = [-2, -1, 0, 1, 2] := by decide
  have hc : centresList (usableRadius ⟨4, 1⟩) (2 + 6) (3 / 50000 + 6)
      (1 / 25000000000) 0 =
      [((-399999999999/25000000000), (-300003/25000)), ((-199999999999/25000000000), (-300003/25000)), (1/25000000000, (-300003/25000)), (200000000001/25000000000, (-300003/25000)), (400000000001/25000000000, (-300003/25000)),
       ((-399999999999/25000000000), (-300003/50000)), ((-199999999999/25000000000), (-300003/50000)), (1/25000000000, (-300003/50000)), (200000000001/25000000000, (-300003/50000)), (400000000001/25000000000, (-300003/50000)),
       ((-399999999999/25000000000), 0), ((-199999999999/25000000000), 0), (1/25000000000, 0), (200000000001/25000000000, 0), (400000000001/25000000000, 0),
       ((-399999999999/25000000000), 300003/50000), ((-199999999999/25000000000), 300003/50000), (1/25000000000, 300003/50000), (200000000001/25000000000, 300003/50000), (400000000001/25000000000, 300003/50000),
       ((-399999999999/25000000000), 300003/25000), ((-199999999999/25000000000), 300003/25000), (1/25000000000, 300003/25000), (200000000001/25000000000, 300003/25000), (400000000001/25000000000, 300003/25000)] := by
    simp only [centresList, hb, ha]
    norm_num
  simp only [countWithOffsetNoRotation, hc]
  norm_num [withinCircleCoarse, mulSqrtLe, normSq, withinCircle, cornersOk,
    cornersLocal, tolDefault, usableRadius, List.filter, List.all]

set_option maxHeartbeats 4000000 in
theorem count_c7_run1_eval :
    (countWithOffsetNoRotation ⟨4, 1 - 9 / 20000000000⟩ ⟨2, 3 / 50000, 6⟩
      (1 / 25000000000) 0).dpw = 0 := by
  have hb : gridBounds (usableRadius ⟨4, 1 - 9 / 20000000000⟩) (2 + 6) (3 / 50000 + 6) =
      (2, 2) := by
    simp only [gridBounds, usableRadius, Prod.ext_iff]
    norm_num [max_def, Int.ceil_eq_iff]
  have ha : arange (-(2 : ℤ)) (2 + 1) = [-2, -1, 0, 1, 2] := by decide
  have hc : centresList (usableRadius ⟨4, 1 - 9 / 20000000000⟩) (2 + 6) (3 / 50000 + 6)
      (1 / 25000000000) 0 =
      [((-399999999999/25000000000), (-300003/25000)), ((-199999999999/25000000000), (-300003/25000)), (1/25000000000, (-300003/25000)), (200000000001/25000000000, (-300003/25000)), (400000000001/25000000000, (-300003/25000)),
       ((-399999999999/25000000000), (-300003/50000)), ((-199999999999/25000000000), (-300003/50000)), (1/25000000000, (-300003/50000)), (200000000001/25000000000, (-300003/50000)), (400000000001/25000000000, (-300003/50000)),
       ((-399999999999/25000000000), 0), ((-199999999999/25000000000), 0), (1/25000000000, 0), (200000000001/25000000000, 0), (400000000001/25000000000, 0),
       ((-399999999999/25000000000), 300003/50000), ((-199999999999/25000000000), 300003/50000), (1/25000000000, 300003/50000), (200000000001/25000000000, 300003/50000), (400000000001/25000000000, 300003/50000),
       ((-399999999999/25000000000), 300003/25000), ((-199999999999/25000000000), 300003/25000), (1/25000000000, 300003/25000), (200000000001/25000000000, 300003/25000), (400000000001/25000000000, 300003/25000)] := by
    simp only [centresList, hb, ha]
    norm_num
  simp only [countWithOffsetNoRotation, hc]
  norm_num [withinCircleCoarse, mulSqrtLe, normSq, withinCircle, cornersOk,
    cornersLocal, tolDefault, usableRadius, List.filter, List.all]

/-- C7 counterexample: with diameter 4, die 2 × 0.00006 mm with scribe 6,
offset (4e-11, 0), and edge exclusions e1 = 1 - 4.5e-10 ≤ e2 = 1 (both in
[0, diameter/2)), the dpw at the larger exclusion is 1 while the dpw at the
smaller exclusion is 0: the coarse-prune threshold `(R - half_diag)²` grows
again once `R` drops below `half_diag`, so shrinking the radius can admit a
centre the larger radius pruned away. -/
theorem C7_counterexample :
    (1 - 9 / 20000000000 : ℚ) ≤ 1 ∧
    (0 : ℚ) ≤ 1 - 9 / 20000000000 ∧
    (1 : ℚ) < 4 / 2 ∧
    (countWithOffsetNoRotation ⟨4, 1 - 9 / 20000000000⟩ ⟨2, 3 / 50000, 6⟩
      (1 / 25000000000) 0).dpw = 0 ∧
    (countWithOffsetNoRotation ⟨4, 1⟩ ⟨2, 3 / 50000, 6⟩ (1 / 25000000000) 0).dpw = 1 :=
  ⟨by norm_num, by norm_num, by norm_num, count_c7_run1_eval, count_c7_run2_eval⟩

end DieOpt
